import Mathlib

set_option autoImplicit false

/-!
Verification of the algorithmic core of src/src/app/sketch/page.tsx:
scene normalization (the layout effect of HotelModel), the bounds helper
computeObjectSphere, marker discovery with its Power Aisle override, and
the useFlyTo camera flight controller.

Modelling conventions:
* JavaScript floating-point numbers are embedded as exact rationals; the
  floating-point tolerances of the spec (e.g. 1e-4) become exact equalities.
* A vertex list models the world-space geometry reachable under a scene
  node; an empty list models "no finite geometry" (a THREE.Box3 grown from
  no points keeps min = +Infinity, so its isFinite checks fail).
* Where the code feeds an empty box into arithmetic (Box3.min.y with no
  geometry), the JS infinities are modelled explicitly by the JY type.
* THREE sphere radii are square roots; comparisons of a radius against a
  nonnegative constant c are embedded on squares (radius <= c iff
  radiusSq <= c^2 for radius, c >= 0), keeping every definition exact and
  executable.
-/

/-- A 3D vector with exact rational coordinates (embedding THREE.Vector3). -/
structure Vec3 where
  x : ℚ
  y : ℚ
  z : ℚ
deriving DecidableEq, Repr

def vadd (a b : Vec3) : Vec3 := ⟨a.x + b.x, a.y + b.y, a.z + b.z⟩

def vsub (a b : Vec3) : Vec3 := ⟨a.x - b.x, a.y - b.y, a.z - b.z⟩

def vsmul (k : ℚ) (v : Vec3) : Vec3 := ⟨k * v.x, k * v.y, k * v.z⟩

def vlengthSq (v : Vec3) : ℚ := v.x ^ 2 + v.y ^ 2 + v.z ^ 2

/-- THREE.Vector3.lerpVectors a b alpha = a + (b - a) * alpha, componentwise. -/
def lerpV (a b : Vec3) (e : ℚ) : Vec3 := vadd a (vsmul e (vsub b a))

/-- A JS number restricted to the values the normalization path can hold in
the y slot: a finite rational, +Infinity or -Infinity.  (Box3.min.y starts
at +Infinity and is only ever min-ed with finite vertex coordinates, so NaN
cannot arise on this path.) -/
inductive JY where
  | fin (q : ℚ)
  | posInf
  | negInf
deriving DecidableEq, Repr

/-- JS unary minus on the modelled numbers. -/
def negJY : JY → JY
  | JY.fin q => JY.fin (-q)
  | JY.posInf => JY.negInf
  | JY.negInf => JY.posInf

/-- JS addition of a finite rational to a modelled number. -/
def addJY : JY → ℚ → JY
  | JY.fin p, q => JY.fin (p + q)
  | JY.posInf, _ => JY.posInf
  | JY.negInf, _ => JY.negInf

/-- The minimum y over a vertex list, as a THREE.Box3 computes it: the fold
starts from the empty box (min.y = +Infinity). -/
def minYList : List Vec3 → JY
  | [] => JY.posInf
  | v :: vs =>
    match minYList vs with
    | JY.posInf => JY.fin v.y
    | JY.fin m => JY.fin (min v.y m)
    | JY.negInf => JY.negInf

/-- Axis-aligned bounding box of a vertex list: none for the empty (infinite)
box, otherwise the componentwise (min, max) corners.  Embeds
THREE.Box3.setFromObject over the world-space vertices. -/
def box3 : List Vec3 → Option (Vec3 × Vec3)
  | [] => none
  | v :: vs =>
    match box3 vs with
    | none => some (v, v)
    | some (mn, mx) =>
      some (⟨min v.x mn.x, min v.y mn.y, min v.z mn.z⟩,
            ⟨max v.x mx.x, max v.y mx.y, max v.z mx.z⟩)

/-- The state of the HotelModel group and the glTF scene hanging under it.
verts are the scene's vertices in the group's local frame (the frame the
cloned-scene bounding box of lines 74-79 is computed in); posY is the y
component of the group position set at line 82. -/
structure NormScene where
  posY : JY
  verts : List Vec3
deriving DecidableEq, Repr

/-- Lines 74-82 of the layout effect: compute the bounding box of an
unmodified clone of the scene (independent of the group's current position)
and set the group position to (0, -minY, 0).  There is no finiteness guard:
with no geometry, minY is +Infinity and the stored y becomes -Infinity. -/
def runNormalize (s : NormScene) : NormScene :=
  { s with posY := negJY (minYList s.verts) }

/-- Minimum y of the asset's world-space geometry: the scene-local minimum
shifted by the group position (an empty vertex list keeps the world box
empty whatever the group position is). -/
def worldMinY (s : NormScene) : JY :=
  match minYList s.verts with
  | JY.posInf => JY.posInf
  | JY.fin m => addJY s.posY m
  | JY.negInf => JY.negInf

/-- The bounding sphere THREE.Box3.getBoundingSphere produces: for an empty
box the degenerate makeEmpty sphere (center at the origin, negative radius),
else center = box midpoint and radius = half the diagonal length (stored
here as its square). -/
inductive SphereVal where
  | emptyBox
  | ball (center : Vec3) (radiusSq : ℚ)
deriving DecidableEq, Repr

/-- Lines 76-78: the asset-level bounding sphere, computed from the
unmodified clone, so its center is in pre-snap coordinates. -/
def boxSphere (vs : List Vec3) : SphereVal :=
  match box3 vs with
  | none => SphereVal.emptyBox
  | some (mn, mx) =>
    SphereVal.ball ⟨(mn.x + mx.x) / 2, (mn.y + mx.y) / 2, (mn.z + mx.z) / 2⟩
      (vlengthSq (vsub mx mn) / 4)

/-- Line 138: onBounds receives the clone sphere with the center's y zeroed
at the call site (sphere.center.clone().setY(0)); a total function, so the
load completes whatever the geometry. -/
def reportedBounds (vs : List Vec3) : SphereVal :=
  match boxSphere vs with
  | SphereVal.emptyBox => SphereVal.emptyBox
  | SphereVal.ball c rSq => SphereVal.ball ⟨c.x, 0, c.z⟩ rSq

/-- ASCII whitespace, the characters JS String.prototype.trim strips from
the names this code ever manipulates. -/
def isSpaceChar (c : Char) : Bool := c = ' ' || c = '\t' || c = '\n' || c = '\r'

/-- JS String.prototype.trim (executable down to the kernel, which the
library trim is not; they agree on ASCII whitespace). -/
def jsTrim (s : String) : String :=
  ⟨((s.data.dropWhile isSpaceChar).reverse.dropWhile isSpaceChar).reverse⟩

/-- JS String.prototype.toLowerCase, restricted to the ASCII names used
here. -/
def jsToLower (s : String) : String := ⟨s.data.map Char.toLower⟩

/-- relativePath.replace of one leading slash with nothing. -/
def stripLeadingSlash (s : String) : String :=
  match s.data with
  | '/' :: cs => ⟨cs⟩
  | _ => s

/-- basePath.replace of one trailing slash with nothing. -/
def stripTrailingSlash (s : String) : String :=
  match s.data.reverse with
  | '/' :: cs => ⟨cs.reverse⟩
  | _ => s

/-- buildPublicUrl of lines 25-32, parametrized by the optional
NEXT_PUBLIC_BASE_PATH environment value (none models an unset variable;
the JS truthiness test excludes the empty string as well). -/
def buildPublicUrl (basePath : Option String) (relativePath : String) : String :=
  let r := stripLeadingSlash relativePath
  match basePath with
  | some b => if b ≠ "" ∧ b ≠ "/" then stripTrailingSlash b ++ "/" ++ r else "/" ++ r
  | none => "/" ++ r

/-- A scene node (THREE.Object3D): name, visibility, whether it is a mesh,
its uuid, the world-space vertices of its own geometry, and its children.
Vertices are given in the frame of the glTF scene (the group's local
frame); only finite vertices are representable, and an object with no
vertices anywhere below it models "no finite geometry". -/
inductive Obj where
  | node (name : String) (visible : Bool) (isMesh : Bool) (uuid : String)
      (verts : List Vec3) (children : List Obj)

def Obj.name : Obj → String
  | Obj.node n _ _ _ _ _ => n

def Obj.visible : Obj → Bool
  | Obj.node _ v _ _ _ _ => v

def Obj.isMesh : Obj → Bool
  | Obj.node _ _ m _ _ _ => m

def Obj.uuid : Obj → String
  | Obj.node _ _ _ u _ _ => u

def Obj.children : Obj → List Obj
  | Obj.node _ _ _ _ _ cs => cs

mutual

def Obj.allVerts : Obj → List Vec3
  | Obj.node _ _ _ _ vs cs => vs ++ allVertsList cs

def allVertsList : List Obj → List Vec3
  | [] => []
  | o :: os => Obj.allVerts o ++ allVertsList os

end

mutual

/-- Lines 93-97: Object3D.traverse in preorder, collecting every visible
named mesh (traverse visits the node itself first, then each child
subtree in order). -/
def traverseMeshes : Obj → List Obj
  | Obj.node n v m u vs cs =>
    (if n ≠ "" ∧ v = true ∧ m = true then [Obj.node n v m u vs cs] else [])
      ++ traverseMeshesList cs

def traverseMeshesList : List Obj → List Obj
  | [] => []
  | o :: os => traverseMeshes o ++ traverseMeshesList os

end

/-- Lines 88-98: candidate gathering.  Direct children of the scene root
carrying a nonempty name and visible; if that set is empty, fall back to a
full preorder traversal collecting visible named meshes. -/
def candidatesOf (root : Obj) : List Obj :=
  let direct := root.children.filter (fun c => decide (Obj.name c ≠ "") && Obj.visible c)
  if direct.isEmpty then traverseMeshes root else direct

/-- The value computeObjectSphere returns when the box is finite: center of
the bounding sphere and the square of its radius (the THREE radius is
getSize().length() * 0.5, an irrational square root in general, so the model
carries its square; all comparisons in the code pit the radius against
nonnegative constants, which squares preserve). -/
structure SphereInfo where
  center : Vec3
  radiusSq : ℚ
deriving DecidableEq, Repr

/-- Lines 54-60: bounding box of the object's geometry, null when not
finite (an empty box keeps min.x = +Infinity, failing the isFinite test),
else the box's bounding sphere. -/
def computeObjectSphere (o : Obj) : Option SphereInfo :=
  match box3 (Obj.allVerts o) with
  | none => none
  | some (mn, mx) =>
    some ⟨⟨(mn.x + mx.x) / 2, (mn.y + mx.y) / 2, (mn.z + mx.z) / 2⟩,
          vlengthSq (vsub mx mn) / 4⟩

/-- The Marker record of lines 41-48.  radiusSq is the square of the stored
radius. -/
structure Marker where
  id : String
  name : String
  center : Vec3
  radiusSq : ℚ
  description : Option String
  image : Option String
deriving DecidableEq, Repr

/-- The square of the 0.02 radius threshold of line 106. -/
def RADIUS_MIN_SQ : ℚ := 1 / 2500

/-- Line 108: obj.name?.trim() || "Group" (a whitespace-only name trims to
the empty string, which is falsy, so the fallback name applies). -/
def safeNameOf (n : String) : String :=
  if jsTrim n = "" then "Group" else jsTrim n

/-- Lines 112-119: the marker pushed for an accepted candidate.  dy is the
group offset -minY applied at line 82; the candidate's sphere was computed
after that offset, which shifts the center's y by dy and leaves the radius
unchanged. -/
def mkMarker (bp : Option String) (dy : ℚ) (o : Obj) (s : SphereInfo) : Marker :=
  { id := Obj.uuid o,
    name := safeNameOf (Obj.name o),
    center := ⟨s.center.x, s.center.y + dy, s.center.z⟩,
    radiusSq := s.radiusSq,
    description := some ("Information about " ++ safeNameOf (Obj.name o) ++ "."),
    image := some (buildPublicUrl bp "next.svg") }

/-- State of the marker loop of lines 100-121: markers pushed so far, the
usedNames set (as the list of names added, in order), and whether the
length-20 break has fired. -/
structure DiscSt where
  markers : List Marker
  used : List String
  stopped : Bool
deriving DecidableEq, Repr

def discInit : DiscSt := { markers := [], used := [], stopped := false }

/-- One iteration of the for-loop of lines 102-121: skip once the break has
fired; skip candidates with no finite sphere, radius at most 0.02 (the
isFinite(radius) test cannot fail for a finite box over rational
vertices), or an already-used safe name; otherwise push the marker, record
the name, and break when 20 markers have been collected. -/
def discStep (bp : Option String) (dy : ℚ) (st : DiscSt) (o : Obj) : DiscSt :=
  if st.stopped then st
  else
    match computeObjectSphere o with
    | none => st
    | some s =>
      if s.radiusSq ≤ RADIUS_MIN_SQ then st
      else
        if safeNameOf (Obj.name o) ∈ st.used then st
        else
          { markers := st.markers ++ [mkMarker bp dy o s],
            used := st.used ++ [safeNameOf (Obj.name o)],
            stopped := decide (20 ≤ st.markers.length + 1) }

/-- The whole marker loop over a candidate list. -/
def discover (bp : Option String) (dy : ℚ) (cands : List Obj) : List Marker :=
  (cands.foldl (discStep bp dy) discInit).markers

/-- overrideName of line 124. -/
def POWER_AISLE : String := "Power Aisle"

/-- Line 126's predicate: m.name.toLowerCase() === overrideName.toLowerCase(). -/
def isPA (m : Marker) : Bool := jsToLower m.name == jsToLower POWER_AISLE

/-- JS falsiness of an optional string field: undefined and the empty
string are falsy. -/
def jsStrFalsy : Option String → Bool
  | none => true
  | some s => s == ""

/-- Lines 130-135: the in-place mutation of the chosen target marker. -/
def promote (bp : Option String) (m : Marker) : Marker :=
  { m with
    name := POWER_AISLE,
    image := some (buildPublicUrl bp "markers/power-aisle.png"),
    description :=
      if jsStrFalsy m.description then
        some "High-capacity aisle for main power distribution."
      else m.description }

/-- markers.find of line 126 combined with the in-place mutation: replace
the first marker matching isPA, none if there is no match. -/
def findReplacePA (bp : Option String) : List Marker → Option (List Marker)
  | [] => none
  | m :: rest =>
    if isPA m then some (promote bp m :: rest)
    else (findReplacePA bp rest).map (fun ms => m :: ms)

/-- Lines 123-136: the Power Aisle override.  If no marker matches and the
list is nonempty, the first marker is overwritten instead; an empty list is
left untouched. -/
def applyOverride (bp : Option String) (ms : List Marker) : List Marker :=
  match findReplacePA bp ms with
  | some res => res
  | none =>
    match ms with
    | [] => []
    | m :: rest => promote bp m :: rest

/-- Invariant of the marker-loop state: names are pairwise distinct and
recorded in usedNames, radii clear the 0.02 threshold (on squares),
descriptions are the generated nonempty strings, and at most 20 markers are
ever collected (strictly fewer while the break has not fired). -/
def DiscInv (st : DiscSt) : Prop :=
  (st.markers.map Marker.name).Nodup ∧
  (∀ m ∈ st.markers, m.name ∈ st.used) ∧
  (∀ m ∈ st.markers, RADIUS_MIN_SQ < m.radiusSq) ∧
  (∀ m ∈ st.markers, m.description = some ("Information about " ++ m.name ++ ".")) ∧
  st.markers.length ≤ 20 ∧
  (st.stopped = false → st.markers.length < 20)

/-- Two unit-cube corners: a sphere with radiusSq 3/4, clearing the 0.02
threshold comfortably. -/
def wVertsUnit : List Vec3 := [⟨0, 0, 0⟩, ⟨1, 1, 1⟩]

/-- A visible mesh whose name is a single space: nonempty but trims to "". -/
def wWsObj : Obj := Obj.node " " true true "u-ws" wVertsUnit []

/-- A small scene root with one named visible child. -/
def wRoot : Obj :=
  Obj.node "Scene" true false "u-root" [] [Obj.node "Lobby" true false "u-lobby" wVertsUnit []]

/-- The sphere of wVertsUnit. -/
def wSphereUnit : SphereInfo := ⟨⟨1 / 2, 1 / 2, 1 / 2⟩, 3 / 4⟩

def wMarkerA : Marker :=
  { id := "a", name := "Entrance", center := ⟨0, 0, 0⟩, radiusSq := 1,
    description := some "Information about Entrance.", image := some "/next.svg" }

def wMarkerB : Marker :=
  { id := "b", name := "POWER aisle", center := ⟨1, 0, 1⟩, radiusSq := 2,
    description := some "Information about POWER aisle.", image := some "/next.svg" }

/-- Exact rational square root: some r with r * r = q when one exists (the
numerator and denominator of the normalized fraction are perfect squares),
none otherwise.  Used only to model Vector3.normalize on the inputs where
the exact direction is representable; JS would compute a rounded float on
the others, which an exact embedding cannot mirror. -/
def ratSqrt? (q : ℚ) : Option ℚ :=
  if q < 0 then none
  else
    if Nat.sqrt q.num.toNat * Nat.sqrt q.num.toNat = q.num.toNat ∧
        Nat.sqrt q.den * Nat.sqrt q.den = q.den then
      some ((Nat.sqrt q.num.toNat : ℚ) / (Nat.sqrt q.den : ℚ))
    else none

/-- The OrbitControls state the flight code touches: the mutable look-at
target and the configured minimum orbit distance. -/
structure CtrlState where
  target : Vec3
  minDistance : ℚ
deriving DecidableEq, Repr

/-- The animRef record of lines 153-161.  onComplete is modelled by an
optional identifier so that invocations can be counted; t is elapsed time,
d the clamped duration. -/
structure Flight where
  startPos : Vec3
  startTarget : Vec3
  endPos : Vec3
  endTarget : Vec3
  t : ℚ
  d : ℚ
  onComplete : Option Nat
deriving DecidableEq, Repr

/-- The state useFlyTo manipulates: the camera position, the optional
OrbitControls (controlsRef.current), the single optional flight record, and
the trace of continuation identifiers invoked so far (in order). -/
structure CamState where
  camPos : Vec3
  ctrl : Option CtrlState
  flight : Option Flight
  fired : List Nat
deriving DecidableEq, Repr

/-- The smoothstep ease of line 168: e = k * k * (3 - 2 * k). -/
def smoothstep (k : ℚ) : ℚ := k * k * (3 - 2 * k)

/-- One useFrame tick (lines 163-186): no flight means no change; otherwise
clamp t to d, ease, write the interpolated position to the camera and the
interpolated target to the controls if present, and on completion clear the
record and then invoke the stored continuation.  (The JS computes the pose
once and then branches; the model repeats the identical pose expression in
both branches, which denotes the same state.  camera.lookAt in the
controls-free branch only changes orientation, which the model does not
track.) -/
def advance (s : CamState) (δ : ℚ) : CamState :=
  match s.flight with
  | none => s
  | some a =>
    if a.d ≤ min (a.t + δ) a.d then
      { s with
        camPos := lerpV a.startPos a.endPos (smoothstep (min (a.t + δ) a.d / a.d)),
        ctrl := s.ctrl.map (fun c =>
          { c with target := (lerpV a.startTarget a.endTarget
              (smoothstep (min (a.t + δ) a.d / a.d))) }),
        flight := none,
        fired := s.fired ++ a.onComplete.toList }
    else
      { s with
        camPos := lerpV a.startPos a.endPos (smoothstep (min (a.t + δ) a.d / a.d)),
        ctrl := s.ctrl.map (fun c =>
          { c with target := (lerpV a.startTarget a.endTarget
              (smoothstep (min (a.t + δ) a.d / a.d))) }),
        flight := some { a with t := min (a.t + δ) a.d } }

/-- A sequence of frame ticks. -/
def advanceAll (s : CamState) (ds : List ℚ) : CamState := ds.foldl advance s

/-- Lines 189-192: the viewing direction, normalize(camera.position -
(controls target or origin)), with the fallback normalize((1, 0.5, 1)) =
(2/3, 1/3, 2/3) when the difference is the zero vector (whose normalize is
NaN, failing the isFinite check).  none marks directions whose exact length
is irrational, outside this exact embedding. -/
def flyDirOf (s : CamState) : Option Vec3 :=
  let tgt := (s.ctrl.map CtrlState.target).getD ⟨0, 0, 0⟩
  let v := vsub s.camPos tgt
  if v = (⟨0, 0, 0⟩ : Vec3) then some ⟨2 / 3, 1 / 3, 2 / 3⟩
  else (ratSqrt? (vlengthSq v)).map (fun l => vsmul (1 / l) v)

/-- Lines 194-208 given the already-computed direction: clamp the distance
to minDistance + 0.01 (minDistance 0 when no controls), compute the end
position along the direction, snapshot the start pose, clamp the duration
to at least 0.2, and install the record, replacing any in-progress flight
without touching the fired trace. -/
def flyToWithDir (s : CamState) (dir endTarget : Vec3) (distance duration : ℚ)
    (cb : Option Nat) : CamState :=
  { s with
    flight := some
      { startPos := s.camPos,
        startTarget := (s.ctrl.map CtrlState.target).getD ⟨0, 0, 0⟩,
        endPos := vadd endTarget
          (vsmul (max distance ((s.ctrl.map CtrlState.minDistance).getD 0 + 1 / 100)) dir),
        endTarget := endTarget,
        t := 0,
        d := max (1 / 5) duration,
        onComplete := cb } }

/-- The whole flyTo of lines 188-209: compute the direction, then install
the flight.  none only when the exact direction is not representable. -/
def flyTo (s : CamState) (endTarget : Vec3) (distance duration : ℚ)
    (cb : Option Nat) : Option CamState :=
  (flyDirOf s).map (fun dir => flyToWithDir s dir endTarget distance duration cb)

/-- Fixture: camera at (2, 1, 2) looking at the origin, controls present
with minDistance 0, no flight, nothing fired. -/
def camS0 : CamState :=
  { camPos := ⟨2, 1, 2⟩,
    ctrl := some { target := ⟨0, 0, 0⟩, minDistance := 0 },
    flight := none,
    fired := [] }

/-- The unit direction from the origin to (2, 1, 2): length 3. -/
def dirW : Vec3 := ⟨2 / 3, 1 / 3, 2 / 3⟩

/-- Fixture: camera sitting exactly on the orbit target, so the viewing
direction is degenerate and line 192's fallback direction
normalize((1, 0.5, 1)) = (2/3, 1/3, 2/3) applies. -/
def camSDeg : CamState :=
  { camPos := ⟨0, 0, 0⟩,
    ctrl := some { target := ⟨0, 0, 0⟩, minDistance := 0 },
    flight := none,
    fired := [] }

/-- Fixture: a state with a flight already in progress whose continuation
identifier is 5. -/
def camSBusy : CamState :=
  { camPos := ⟨0, 0, 0⟩,
    ctrl := some { target := ⟨0, 0, 0⟩, minDistance := 0 },
    flight := some
      { startPos := ⟨0, 0, 0⟩, startTarget := ⟨0, 0, 0⟩, endPos := ⟨1, 1, 1⟩,
        endTarget := ⟨1, 1, 1⟩, t := 1 / 10, d := 1, onComplete := some 5 },
    fired := [] }

theorem minYList_cons (v : Vec3) (vs : List Vec3) :
    minYList (v :: vs) =
      match minYList vs with
      | JY.posInf => JY.fin v.y
      | JY.fin m => JY.fin (min v.y m)
      | JY.negInf => JY.negInf := rfl

theorem minYList_of_ne_nil (vs : List Vec3) (h : vs ≠ []) :
    ∃ m : ℚ, minYList vs = JY.fin m := by
  induction vs with
  | nil => exact absurd rfl h
  | cons v tl ih =>
    cases htl : tl with
    | nil => exact ⟨v.y, by simp [minYList]⟩
    | cons w tw =>
      subst htl
      obtain ⟨m, hm⟩ := ih (by simp)
      exact ⟨min v.y m, by rw [minYList_cons, hm]⟩

theorem box3_cons (v : Vec3) (vs : List Vec3) :
    box3 (v :: vs) =
      match box3 vs with
      | none => some (v, v)
      | some (mn, mx) =>
        some (⟨min v.x mn.x, min v.y mn.y, min v.z mn.z⟩,
              ⟨max v.x mx.x, max v.y mx.y, max v.z mx.z⟩) := rfl

theorem box3_eq_none_iff (vs : List Vec3) : box3 vs = none ↔ vs = [] := by
  cases vs with
  | nil => simp [box3]
  | cons v tl =>
    rw [box3_cons]
    cases hb : box3 tl with
    | none => simp
    | some p => cases p; simp

theorem box3_minY (vs : List Vec3) (mn mx : Vec3) (h : box3 vs = some (mn, mx)) :
    minYList vs = JY.fin mn.y := by
  induction vs generalizing mn mx with
  | nil => simp [box3] at h
  | cons v tl ih =>
    rw [box3_cons] at h
    rw [minYList_cons]
    cases hb : box3 tl with
    | none =>
      rw [hb] at h
      have htl : tl = [] := (box3_eq_none_iff tl).mp hb
      subst htl
      injection h with h1
      injection h1 with h2 h3
      subst h2
      rfl
    | some p =>
      obtain ⟨mn1, mx1⟩ := p
      rw [hb] at h
      injection h with h1
      injection h1 with h2 h3
      rw [ih mn1 mx1 hb]
      subst h2
      rfl

theorem box3_shiftY (d : ℚ) :
    ∀ (vs : List Vec3) (mn mx : Vec3), box3 vs = some (mn, mx) →
      box3 (vs.map (fun v => (⟨v.x, v.y + d, v.z⟩ : Vec3))) =
        some (⟨mn.x, mn.y + d, mn.z⟩, ⟨mx.x, mx.y + d, mx.z⟩)
  | [], mn, mx, h => by simp [box3] at h
  | v :: tl, mn, mx, h => by
    rw [box3_cons] at h
    rw [List.map_cons, box3_cons]
    cases hb : box3 tl with
    | none =>
      have htl : tl = [] := (box3_eq_none_iff tl).mp hb
      subst htl
      rw [hb] at h
      injection h with h1
      injection h1 with h2 h3
      subst h2
      subst h3
      rfl
    | some p =>
      obtain ⟨mn1, mx1⟩ := p
      rw [hb] at h
      injection h with h1
      injection h1 with h2 h3
      subst h2
      subst h3
      rw [box3_shiftY d tl mn1 mx1 hb]
      simp [min_add_add_right, max_add_add_right]

theorem boxSphere_eq_ball (vs : List Vec3) (mn mx : Vec3) (h : box3 vs = some (mn, mx)) :
    boxSphere vs =
      SphereVal.ball ⟨(mn.x + mx.x) / 2, (mn.y + mx.y) / 2, (mn.z + mx.z) / 2⟩
        (vlengthSq (vsub mx mn) / 4) := by
  unfold boxSphere
  rw [h]

theorem boxSphere_ball_inv (vs : List Vec3) (c : Vec3) (rSq : ℚ)
    (h : boxSphere vs = SphereVal.ball c rSq) :
    ∃ mn mx, box3 vs = some (mn, mx) ∧
      c = ⟨(mn.x + mx.x) / 2, (mn.y + mx.y) / 2, (mn.z + mx.z) / 2⟩ ∧
      rSq = vlengthSq (vsub mx mn) / 4 := by
  unfold boxSphere at h
  cases hb : box3 vs with
  | none =>
    rw [hb] at h
    exact absurd h (by simp)
  | some p =>
    obtain ⟨mn, mx⟩ := p
    rw [hb] at h
    injection h with h1 h2
    exact ⟨mn, mx, rfl, h1.symm, h2.symm⟩

theorem reportedBounds_ball (vs : List Vec3) (c : Vec3) (rSq : ℚ)
    (h : boxSphere vs = SphereVal.ball c rSq) :
    reportedBounds vs = SphereVal.ball ⟨c.x, 0, c.z⟩ rSq := by
  unfold reportedBounds
  rw [h]

/-- C1: for every asset whose geometry contains at least one finite vertex,
after the normalization of lines 71-85 (group position set to (0, -minY, 0)
from the unmodified-clone bounding box) the minimum y of the asset's
world-space geometry is exactly 0 (the exact-rational counterpart of the
1e-4 tolerance), and running the normalization again leaves the position
unchanged, so the offset is effectively applied once per load. -/
theorem c1_min_y_zero_after_normalize (s : NormScene) (h : s.verts ≠ []) :
    worldMinY (runNormalize s) = JY.fin 0 ∧
    runNormalize (runNormalize s) = runNormalize s := by
  obtain ⟨m, hm⟩ := minYList_of_ne_nil s.verts h
  constructor
  · have h1 : runNormalize s = { posY := JY.fin (-m), verts := s.verts } := by
      unfold runNormalize
      rw [hm]
      rfl
    rw [h1]
    have h2 : worldMinY { posY := JY.fin (-m), verts := s.verts } =
        addJY (JY.fin (-m)) m := by
      unfold worldMinY
      rw [hm]
    rw [h2]
    simp [addJY]
  · rfl

theorem c1_min_y_zero_after_normalize_witness :
    worldMinY (runNormalize { posY := JY.fin 0, verts := [⟨1, 5, 2⟩] }) = JY.fin 0 ∧
    runNormalize (runNormalize { posY := JY.fin 0, verts := [⟨1, 5, 2⟩] }) =
      runNormalize { posY := JY.fin 0, verts := [⟨1, 5, 2⟩] } :=
  c1_min_y_zero_after_normalize { posY := JY.fin 0, verts := [⟨1, 5, 2⟩] } (by decide)

/-- C5 counterexample: with no finite geometry the code does not skip the
vertical offset.  Box3.min.y of the empty box is +Infinity, and line 82
unconditionally runs position.set(0, -minY, 0), so the group's y position
becomes -Infinity instead of staying at its previous value 0. -/
theorem c5_counterexample :
    (runNormalize { posY := JY.fin 0, verts := [] }).posY = JY.negInf ∧
    JY.negInf ≠ JY.fin 0 := by decide

/-- C5 amended: for an asset with no finite geometry the load still
completes and a degenerate empty-box sphere is reported, but the vertical
offset is not skipped: the group's y position is set to -minY with
minY = +Infinity, i.e. it becomes -Infinity rather than being left
unchanged. -/
theorem c5_empty_geometry_behavior (s : NormScene) (h : s.verts = []) :
    (runNormalize s).posY = JY.negInf ∧
    (runNormalize s).verts = s.verts ∧
    reportedBounds s.verts = SphereVal.emptyBox := by
  obtain ⟨p, vs⟩ := s
  have hv : vs = [] := h
  subst hv
  exact ⟨rfl, rfl, rfl⟩

theorem c5_empty_geometry_behavior_witness :
    (runNormalize { posY := JY.fin 0, verts := [] }).posY = JY.negInf ∧
    (runNormalize { posY := JY.fin 0, verts := [] }).verts =
      ({ posY := JY.fin 0, verts := [] } : NormScene).verts ∧
    reportedBounds ({ posY := JY.fin 0, verts := [] } : NormScene).verts =
      SphereVal.emptyBox :=
  c5_empty_geometry_behavior { posY := JY.fin 0, verts := [] } rfl

/-- C6: the asset sphere of lines 76-78 is computed from the unmodified
clone, so its center's y is the pre-snap box midpoint; line 138 (the
caller of the normalization step) is what projects the center onto the
ground plane before handing it to onBounds; and the sphere of the
post-snap geometry (y shifted by -minY) has a different center y whenever
minY is nonzero, confirming that the computed sphere does not reflect the
post-snap position. -/
theorem c6_sphere_center_pre_snap (s : NormScene) (c : Vec3) (rSq : ℚ)
    (h : boxSphere s.verts = SphereVal.ball c rSq) :
    reportedBounds s.verts = SphereVal.ball ⟨c.x, 0, c.z⟩ rSq ∧
    (∃ mn mx, box3 s.verts = some (mn, mx) ∧ c.y = (mn.y + mx.y) / 2) ∧
    (∀ m : ℚ, minYList s.verts = JY.fin m →
      boxSphere (s.verts.map (fun v => (⟨v.x, v.y + -m, v.z⟩ : Vec3))) =
        SphereVal.ball ⟨c.x, c.y + -m, c.z⟩ rSq ∧
      (m ≠ 0 → c.y + -m ≠ c.y)) := by
  obtain ⟨mn, mx, hb, hc, hr⟩ := boxSphere_ball_inv s.verts c rSq h
  refine ⟨reportedBounds_ball s.verts c rSq h, ⟨mn, mx, hb, by rw [hc]⟩, ?_⟩
  intro m hm
  constructor
  · rw [boxSphere_eq_ball _ _ _ (box3_shiftY (-m) s.verts mn mx hb)]
    subst hc
    subst hr
    simp only [SphereVal.ball.injEq, Vec3.mk.injEq, vsub, vlengthSq]
    refine ⟨⟨by ring_nf, by ring_nf, by ring_nf⟩, by ring_nf⟩
  · intro hm0 hbad
    rw [hc] at hbad
    have hy : (mn.y + mx.y) / 2 + -m = (mn.y + mx.y) / 2 := hbad
    exact hm0 (by linarith)

theorem c6_sphere_center_pre_snap_witness :
    reportedBounds [⟨0, 2, 0⟩, ⟨2, 6, 2⟩] = SphereVal.ball ⟨1, 0, 1⟩ 6 ∧
    boxSphere (List.map (fun v : Vec3 => (⟨v.x, v.y + -2, v.z⟩ : Vec3)) [⟨0, 2, 0⟩, ⟨2, 6, 2⟩]) =
      SphereVal.ball ⟨1, 4 + -2, 1⟩ 6 ∧
    ((2 : ℚ) ≠ 0 → (4 : ℚ) + -2 ≠ 4) := by
  have hball : boxSphere ([⟨0, 2, 0⟩, ⟨2, 6, 2⟩] :
      List Vec3) = SphereVal.ball ⟨1, 4, 1⟩ 6 := by
    rw [boxSphere_eq_ball [⟨0, 2, 0⟩, ⟨2, 6, 2⟩] ⟨0, 2, 0⟩ ⟨2, 6, 2⟩ (by decide)]
    simp only [SphereVal.ball.injEq, Vec3.mk.injEq, vsub, vlengthSq]
    norm_num
  have h := c6_sphere_center_pre_snap { posY := JY.fin 0, verts := [⟨0, 2, 0⟩, ⟨2, 6, 2⟩] }
    ⟨1, 4, 1⟩ 6 hball
  have h3 := h.2.2 2 (by decide)
  exact ⟨h.1, h3.1, h3.2⟩

theorem discStep_markers_mono (bp : Option String) (dy : ℚ) (st : DiscSt) (o : Obj) :
    ∃ tail, (discStep bp dy st o).markers = st.markers ++ tail := by
  unfold discStep
  split
  · exact ⟨[], by simp⟩
  split
  · exact ⟨[], by simp⟩
  split
  · exact ⟨[], by simp⟩
  split
  · exact ⟨[], by simp⟩
  exact ⟨_, rfl⟩

theorem foldl_discStep_markers_mono (bp : Option String) (dy : ℚ) :
    ∀ (l : List Obj) (st : DiscSt), ∃ tail,
      (l.foldl (discStep bp dy) st).markers = st.markers ++ tail
  | [], st => ⟨[], by simp⟩
  | o :: os, st => by
    obtain ⟨t1, h1⟩ := discStep_markers_mono bp dy st o
    obtain ⟨t2, h2⟩ := foldl_discStep_markers_mono bp dy os (discStep bp dy st o)
    exact ⟨t1 ++ t2, by rw [List.foldl_cons, h2, h1, List.append_assoc]⟩

theorem discStep_inv (bp : Option String) (dy : ℚ) (st : DiscSt) (o : Obj)
    (h : DiscInv st) : DiscInv (discStep bp dy st o) := by
  obtain ⟨hnd, hused, hrad, hdesc, hlen, hlt⟩ := h
  unfold discStep
  by_cases hstop : st.stopped = true
  · rw [if_pos hstop]
    exact ⟨hnd, hused, hrad, hdesc, hlen, hlt⟩
  rw [if_neg hstop]
  cases hsph : computeObjectSphere o with
  | none => exact ⟨hnd, hused, hrad, hdesc, hlen, hlt⟩
  | some s =>
  show DiscInv (if s.radiusSq ≤ RADIUS_MIN_SQ then st
    else if safeNameOf (Obj.name o) ∈ st.used then st
    else { markers := st.markers ++ [mkMarker bp dy o s],
           used := st.used ++ [safeNameOf (Obj.name o)],
           stopped := decide (20 ≤ st.markers.length + 1) })
  by_cases hrq : s.radiusSq ≤ RADIUS_MIN_SQ
  · rw [if_pos hrq]
    exact ⟨hnd, hused, hrad, hdesc, hlen, hlt⟩
  rw [if_neg hrq]
  by_cases hmem : safeNameOf (Obj.name o) ∈ st.used
  · rw [if_pos hmem]
    exact ⟨hnd, hused, hrad, hdesc, hlen, hlt⟩
  rw [if_neg hmem]
  have hstop2 : st.stopped = false := by simpa using hstop
  have hlen2 : st.markers.length < 20 := hlt hstop2
  refine ⟨?_, ?_, ?_, ?_, ?_, ?_⟩
  · show ((st.markers ++ [mkMarker bp dy o s]).map Marker.name).Nodup
    rw [List.map_append]
    rw [List.nodup_append]
    refine ⟨hnd, by simp [mkMarker], ?_⟩
    intro a ha hb
    simp only [List.map_cons, List.map_nil, List.mem_singleton, mkMarker] at hb
    subst hb
    obtain ⟨m, hm, hmn⟩ := List.mem_map.mp ha
    exact hmem (hmn ▸ hused m hm)
  · intro m hm
    rcases List.mem_append.mp hm with h1 | h1
    · exact List.mem_append.mpr (Or.inl (hused m h1))
    · simp only [List.mem_singleton] at h1
      subst h1
      exact List.mem_append.mpr (Or.inr (by simp [mkMarker]))
  · intro m hm
    rcases List.mem_append.mp hm with h1 | h1
    · exact hrad m h1
    · simp only [List.mem_singleton] at h1
      subst h1
      exact lt_of_not_le hrq
  · intro m hm
    rcases List.mem_append.mp hm with h1 | h1
    · exact hdesc m h1
    · simp only [List.mem_singleton] at h1
      subst h1
      rfl
  · show (st.markers ++ [mkMarker bp dy o s]).length ≤ 20
    rw [List.length_append]
    simp only [List.length_singleton]
    omega
  · intro hs
    show (st.markers ++ [mkMarker bp dy o s]).length < 20
    have : ¬ (20 ≤ st.markers.length + 1) := by
      intro hcon
      have := decide_eq_true hcon
      rw [show (decide (20 ≤ st.markers.length + 1)) = false from hs] at this
      exact Bool.false_ne_true this
    rw [List.length_append]
    simp only [List.length_singleton]
    omega

theorem foldl_discStep_inv (bp : Option String) (dy : ℚ) :
    ∀ (l : List Obj) (st : DiscSt), DiscInv st → DiscInv (l.foldl (discStep bp dy) st)
  | [], _, h => h
  | o :: os, st, h =>
    foldl_discStep_inv bp dy os (discStep bp dy st o) (discStep_inv bp dy st o h)

theorem discInit_inv : DiscInv discInit := by
  refine ⟨List.nodup_nil, ?_, ?_, ?_, ?_, ?_⟩ <;> simp [discInit]

theorem discover_inv (bp : Option String) (dy : ℚ) (cands : List Obj) :
    DiscInv (cands.foldl (discStep bp dy) discInit) :=
  foldl_discStep_inv bp dy cands discInit discInit_inv

theorem discStep_skips_used_name (bp : Option String) (dy : ℚ) (st : DiscSt) (o : Obj)
    (hmem : safeNameOf (Obj.name o) ∈ st.used) :
    discStep bp dy st o = st := by
  unfold discStep
  by_cases hstop : st.stopped = true
  · rw [if_pos hstop]
  rw [if_neg hstop]
  cases computeObjectSphere o with
  | none => rfl
  | some s =>
    show (if s.radiusSq ≤ RADIUS_MIN_SQ then st
      else if safeNameOf (Obj.name o) ∈ st.used then st
      else { markers := st.markers ++ [mkMarker bp dy o s],
             used := st.used ++ [safeNameOf (Obj.name o)],
             stopped := decide (20 ≤ st.markers.length + 1) }) = st
    by_cases hrq : s.radiusSq ≤ RADIUS_MIN_SQ
    · rw [if_pos hrq]
    · rw [if_neg hrq, if_pos hmem]

theorem countP_name_le_one (ms : List Marker) (n : String)
    (hnd : (ms.map Marker.name).Nodup) :
    ms.countP (fun m => m.name == n) ≤ 1 := by
  have h1 : (ms.map Marker.name).countP (fun x => x == n) =
      ms.countP (fun m => m.name == n) := by
    rw [List.countP_map]
    rfl
  rw [← h1]
  have h2 := List.nodup_iff_count_le_one.mp hnd n
  rwa [List.count_eq_countP] at h2

/-- C2: in every discovery pass, every returned marker clears the 0.02
radius threshold (stated on radius squares), the (already trimmed) names
are pairwise distinct, at most 20 markers are returned however many
candidates exist, and a candidate whose safe name was already used leaves
the loop state unchanged (first occurrence wins). -/
theorem c2_discovery_pass_invariants (bp : Option String) (dy : ℚ) (root : Obj) :
    (∀ m ∈ discover bp dy (candidatesOf root), RADIUS_MIN_SQ < m.radiusSq) ∧
    ((discover bp dy (candidatesOf root)).map Marker.name).Nodup ∧
    (discover bp dy (candidatesOf root)).length ≤ 20 ∧
    (∀ (st : DiscSt) (o : Obj), safeNameOf (Obj.name o) ∈ st.used →
      discStep bp dy st o = st) := by
  obtain ⟨hnd, hused, hrad, hdesc, hlen, hlt⟩ := discover_inv bp dy (candidatesOf root)
  exact ⟨hrad, hnd, hlen, fun st o hmem => discStep_skips_used_name bp dy st o hmem⟩

/-- C9: a candidate whose name is nonempty but trims to the empty string is
not dropped: it is accepted (when its geometry passes and nothing earlier
took the fallback name) under the name "Group", and at most one marker per
pass carries that name since later whitespace-named candidates deduplicate
against it. -/
theorem c9_whitespace_names_become_group (bp : Option String) (dy : ℚ)
    (cands pre post : List Obj) (o : Obj) (s : SphereInfo)
    (hsplit : cands = pre ++ o :: post)
    (hname : Obj.name o ≠ "")
    (hws : jsTrim (Obj.name o) = "")
    (hsph : computeObjectSphere o = some s)
    (hrq : RADIUS_MIN_SQ < s.radiusSq)
    (hused : "Group" ∉ (pre.foldl (discStep bp dy) discInit).used)
    (hstop : (pre.foldl (discStep bp dy) discInit).stopped = false) :
    mkMarker bp dy o s ∈ discover bp dy cands ∧
    (mkMarker bp dy o s).name = "Group" ∧
    (discover bp dy cands).countP (fun m => m.name == "Group") ≤ 1 := by
  have hsafe : safeNameOf (Obj.name o) = "Group" := by
    unfold safeNameOf
    rw [hws]
    simp
  set st := pre.foldl (discStep bp dy) discInit with hst
  have hstep : discStep bp dy st o =
      { markers := st.markers ++ [mkMarker bp dy o s],
        used := st.used ++ [safeNameOf (Obj.name o)],
        stopped := decide (20 ≤ st.markers.length + 1) } := by
    unfold discStep
    rw [if_neg (by rw [hstop]; simp), hsph]
    show (if s.radiusSq ≤ RADIUS_MIN_SQ then st
      else if safeNameOf (Obj.name o) ∈ st.used then st
      else { markers := st.markers ++ [mkMarker bp dy o s],
             used := st.used ++ [safeNameOf (Obj.name o)],
             stopped := decide (20 ≤ st.markers.length + 1) }) = _
    rw [if_neg (not_le.mpr hrq), if_neg (by rw [hsafe]; exact hused)]
  have hdisc : discover bp dy cands =
      (post.foldl (discStep bp dy) (discStep bp dy st o)).markers := by
    unfold discover
    rw [hsplit, List.foldl_append]
    rfl
  obtain ⟨tail, htail⟩ := foldl_discStep_markers_mono bp dy post (discStep bp dy st o)
  refine ⟨?_, ?_, ?_⟩
  · rw [hdisc, htail, hstep]
    simp
  · show safeNameOf (Obj.name o) = "Group"
    exact hsafe
  · exact countP_name_le_one _ "Group" (discover_inv bp dy cands).1

theorem marker_descr_not_falsy (m : Marker)
    (h : m.description = some ("Information about " ++ m.name ++ ".")) :
    jsStrFalsy m.description = false := by
  rw [h]
  unfold jsStrFalsy
  rw [beq_eq_false_iff_ne]
  intro hcon
  have hlen := congrArg String.length hcon
  rw [String.length_append, String.length_append] at hlen
  have h18 : "Information about ".length = 18 := by decide
  have hdot : ".".length = 1 := by decide
  have h0 : "".length = 0 := by decide
  omega

theorem findReplacePA_preserves_descr (bp : Option String) :
    ∀ (ms res : List Marker),
      (∀ m ∈ ms, jsStrFalsy m.description = false) →
      findReplacePA bp ms = some res →
      res.map Marker.description = ms.map Marker.description
  | [], res, _, h => by simp [findReplacePA] at h
  | m :: rest, res, hall, h => by
    unfold findReplacePA at h
    by_cases hpa : isPA m = true
    · rw [if_pos hpa] at h
      injection h with h1
      subst h1
      simp only [List.map_cons]
      congr 1
      show (promote bp m).description = m.description
      show (if jsStrFalsy m.description then
        some "High-capacity aisle for main power distribution."
        else m.description) = m.description
      rw [hall m (by simp)]
      simp
    · rw [if_neg hpa] at h
      cases hrec : findReplacePA bp rest with
      | none =>
        rw [hrec] at h
        exact absurd h (by simp)
      | some res2 =>
        rw [hrec] at h
        injection h with h1
        subst h1
        simp only [List.map_cons]
        congr 1
        exact findReplacePA_preserves_descr bp rest res2
          (fun x hx => hall x (by simp [hx])) hrec

theorem applyOverride_preserves_descr (bp : Option String) (ms : List Marker)
    (hall : ∀ m ∈ ms, jsStrFalsy m.description = false) :
    (applyOverride bp ms).map Marker.description = ms.map Marker.description := by
  unfold applyOverride
  cases hrec : findReplacePA bp ms with
  | some res => exact findReplacePA_preserves_descr bp ms res hall hrec
  | none =>
    cases ms with
    | nil => rfl
    | cons m rest =>
      simp only [List.map_cons]
      congr 1
      show (if jsStrFalsy m.description then
        some "High-capacity aisle for main power distribution."
        else m.description) = m.description
      rw [hall m (by simp)]
      simp

/-- C10: every discovered marker's description is the generated nonempty
string "Information about <name>.", so the override's fallback branch that
would install the dedicated description is unreachable: applying the
override never changes any marker's description, and the promoted marker
keeps the description generated from its original name. -/
theorem c10_override_description_branch_unreachable (bp : Option String) (dy : ℚ)
    (root : Obj) :
    (∀ m ∈ discover bp dy (candidatesOf root),
        m.description = some ("Information about " ++ m.name ++ ".")) ∧
    (applyOverride bp (discover bp dy (candidatesOf root))).map Marker.description =
      (discover bp dy (candidatesOf root)).map Marker.description := by
  obtain ⟨hnd, hused, hrad, hdesc, hlen, hlt⟩ := discover_inv bp dy (candidatesOf root)
  exact ⟨hdesc, applyOverride_preserves_descr bp _
    (fun m hm => marker_descr_not_falsy m (hdesc m hm))⟩

theorem findReplacePA_spec (bp : Option String) :
    ∀ ms : List Marker,
      (findReplacePA bp ms = none ∧ ∀ m ∈ ms, isPA m = false) ∨
      (∃ i, ∃ hi : i < ms.length,
        isPA (ms.get ⟨i, hi⟩) = true ∧
        (∀ j, ∀ hj : j < ms.length, j < i → isPA (ms.get ⟨j, hj⟩) = false) ∧
        findReplacePA bp ms = some (ms.set i (promote bp (ms.get ⟨i, hi⟩))))
  | [] => Or.inl ⟨rfl, by simp⟩
  | m :: rest => by
    by_cases hpa : isPA m = true
    · refine Or.inr ⟨0, by simp, hpa, ?_, ?_⟩
      · intro j hj hji
        omega
      · unfold findReplacePA
        rw [if_pos hpa]
        rfl
    · have hpaf : isPA m = false := by simpa using hpa
      cases findReplacePA_spec bp rest with
      | inl h =>
        refine Or.inl ⟨?_, ?_⟩
        · unfold findReplacePA
          rw [if_neg hpa, h.1]
          rfl
        · intro x hx
          rcases List.mem_cons.mp hx with h1 | h1
          · rw [h1]
            exact hpaf
          · exact h.2 x h1
      | inr h =>
        obtain ⟨i, hi, hgi, hprior, heq⟩ := h
        refine Or.inr ⟨i + 1, by simpa using Nat.succ_lt_succ hi, ?_, ?_, ?_⟩
        · exact hgi
        · intro j hj hji
          cases j with
          | zero => exact hpaf
          | succ j2 =>
            have hj2 : j2 < rest.length := by
              simp only [List.length_cons] at hj
              omega
            exact hprior j2 hj2 (by omega)
        · unfold findReplacePA
          rw [if_neg hpa, heq]
          rfl

/-- C3: the Power Aisle override rewrites exactly one marker in place (or
none when the list is empty): the first case-insensitive "Power Aisle"
match if one exists, otherwise the first marker of a nonempty list; the
chosen marker's name becomes exactly "Power Aisle" and its image the
dedicated override image, while every other position and the list length
are unchanged. -/
theorem c3_power_aisle_override (bp : Option String) (ms : List Marker) :
    (applyOverride bp ([] : List Marker) = []) ∧
    (applyOverride bp ms).length = ms.length ∧
    (ms ≠ [] → ∃ i, ∃ hi : i < ms.length,
      applyOverride bp ms = ms.set i (promote bp (ms.get ⟨i, hi⟩)) ∧
      (promote bp (ms.get ⟨i, hi⟩)).name = POWER_AISLE ∧
      (promote bp (ms.get ⟨i, hi⟩)).image =
        some (buildPublicUrl bp "markers/power-aisle.png") ∧
      (∀ j, ∀ hj : j < ms.length, j < i → isPA (ms.get ⟨j, hj⟩) = false) ∧
      ((∃ m ∈ ms, isPA m = true) → isPA (ms.get ⟨i, hi⟩) = true) ∧
      ((∀ m ∈ ms, isPA m = false) → i = 0)) := by
  have hmain : ms ≠ [] → ∃ i, ∃ hi : i < ms.length,
      applyOverride bp ms = ms.set i (promote bp (ms.get ⟨i, hi⟩)) ∧
      (promote bp (ms.get ⟨i, hi⟩)).name = POWER_AISLE ∧
      (promote bp (ms.get ⟨i, hi⟩)).image =
        some (buildPublicUrl bp "markers/power-aisle.png") ∧
      (∀ j, ∀ hj : j < ms.length, j < i → isPA (ms.get ⟨j, hj⟩) = false) ∧
      ((∃ m ∈ ms, isPA m = true) → isPA (ms.get ⟨i, hi⟩) = true) ∧
      ((∀ m ∈ ms, isPA m = false) → i = 0) := by
    intro hne
    cases findReplacePA_spec bp ms with
    | inr h =>
      obtain ⟨i, hi, hgi, hprior, heq⟩ := h
      refine ⟨i, hi, ?_, rfl, rfl, hprior, fun _ => hgi, ?_⟩
      · unfold applyOverride
        rw [heq]
      · intro hfalse
        have h2 := hfalse (ms.get ⟨i, hi⟩) (ms.get_mem i hi)
        rw [hgi] at h2
        exact absurd h2 (by simp)
    | inl h =>
      obtain ⟨hnone, hall⟩ := h
      cases ms with
      | nil => exact absurd rfl hne
      | cons m rest =>
        refine ⟨0, by simp, ?_, rfl, rfl, ?_, ?_, fun _ => rfl⟩
        · unfold applyOverride
          rw [hnone]
          rfl
        · intro j hj hji
          omega
        · intro hex
          obtain ⟨m0, hm0, hpa0⟩ := hex
          rw [hall m0 hm0] at hpa0
          exact absurd hpa0 (by simp)
  have hlen : (applyOverride bp ms).length = ms.length := by
    by_cases hne : ms = []
    · rw [hne]
      rfl
    · obtain ⟨i, hi, happ, hrest⟩ := hmain hne
      rw [happ, List.length_set]
  exact ⟨rfl, hlen, hmain⟩

theorem c2_discovery_pass_invariants_witness :
    (∀ m ∈ discover none 0 (candidatesOf wRoot), RADIUS_MIN_SQ < m.radiusSq) ∧
    ((discover none 0 (candidatesOf wRoot)).map Marker.name).Nodup ∧
    (discover none 0 (candidatesOf wRoot)).length ≤ 20 ∧
    (∀ (st : DiscSt) (o : Obj), safeNameOf (Obj.name o) ∈ st.used →
      discStep none 0 st o = st) :=
  c2_discovery_pass_invariants none 0 wRoot

theorem c9_whitespace_names_become_group_witness :
    mkMarker none 0 wWsObj wSphereUnit ∈ discover none 0 [wWsObj] ∧
    (mkMarker none 0 wWsObj wSphereUnit).name = "Group" ∧
    (discover none 0 [wWsObj]).countP (fun m => m.name == "Group") ≤ 1 := by
  have hsph : computeObjectSphere wWsObj = some wSphereUnit := by
    have hbox : box3 (Obj.allVerts wWsObj) = some (⟨0, 0, 0⟩, ⟨1, 1, 1⟩) := by decide
    unfold computeObjectSphere
    rw [hbox]
    norm_num [wSphereUnit, vsub, vlengthSq, Option.some.injEq, SphereInfo.mk.injEq,
      Vec3.mk.injEq]
  have hrq : RADIUS_MIN_SQ < wSphereUnit.radiusSq := by
    norm_num [RADIUS_MIN_SQ, wSphereUnit]
  exact c9_whitespace_names_become_group none 0 [wWsObj] [] [] wWsObj wSphereUnit rfl
    (by decide) (by decide) hsph hrq (by simp [discInit]) rfl

theorem c10_override_description_branch_unreachable_witness :
    (∀ m ∈ discover none 0 (candidatesOf wRoot),
        m.description = some ("Information about " ++ m.name ++ ".")) ∧
    (applyOverride none (discover none 0 (candidatesOf wRoot))).map Marker.description =
      (discover none 0 (candidatesOf wRoot)).map Marker.description :=
  c10_override_description_branch_unreachable none 0 wRoot

theorem c3_power_aisle_override_witness :
    ∃ i, ∃ hi : i < ([wMarkerA, wMarkerB] : List Marker).length,
      applyOverride none [wMarkerA, wMarkerB] =
        ([wMarkerA, wMarkerB] : List Marker).set i
          (promote none (([wMarkerA, wMarkerB] : List Marker).get ⟨i, hi⟩)) ∧
      (promote none (([wMarkerA, wMarkerB] : List Marker).get ⟨i, hi⟩)).name =
        POWER_AISLE ∧
      (promote none (([wMarkerA, wMarkerB] : List Marker).get ⟨i, hi⟩)).image =
        some (buildPublicUrl none "markers/power-aisle.png") ∧
      (∀ j, ∀ hj : j < ([wMarkerA, wMarkerB] : List Marker).length, j < i →
        isPA (([wMarkerA, wMarkerB] : List Marker).get ⟨j, hj⟩) = false) ∧
      ((∃ m ∈ ([wMarkerA, wMarkerB] : List Marker), isPA m = true) →
        isPA (([wMarkerA, wMarkerB] : List Marker).get ⟨i, hi⟩) = true) ∧
      ((∀ m ∈ ([wMarkerA, wMarkerB] : List Marker), isPA m = false) → i = 0) :=
  (c3_power_aisle_override none [wMarkerA, wMarkerB]).2.2 (by decide)

theorem vec3_eq (a b : Vec3) (hx : a.x = b.x) (hy : a.y = b.y) (hz : a.z = b.z) :
    a = b := by
  cases a
  cases b
  simp_all

theorem lerpV_one (a b : Vec3) : lerpV a b 1 = b := by
  apply vec3_eq
  · show a.x + 1 * (b.x - a.x) = b.x
    ring
  · show a.y + 1 * (b.y - a.y) = b.y
    ring
  · show a.z + 1 * (b.z - a.z) = b.z
    ring

theorem smoothstep_one : smoothstep 1 = 1 := by norm_num [smoothstep]

theorem advance_no_flight (s : CamState) (δ : ℚ) (h : s.flight = none) :
    advance s δ = s := by
  unfold advance
  rw [h]

theorem advanceAll_no_flight (s : CamState) (ds : List ℚ) (h : s.flight = none) :
    advanceAll s ds = s := by
  induction ds with
  | nil => rfl
  | cons d tl ih =>
    show advanceAll (advance s d) tl = s
    rw [advance_no_flight s d h]
    exact ih

theorem advance_some (s : CamState) (a : Flight) (δ : ℚ) (hf : s.flight = some a) :
    advance s δ =
      if a.d ≤ min (a.t + δ) a.d then
        { s with
          camPos := lerpV a.startPos a.endPos (smoothstep (min (a.t + δ) a.d / a.d)),
          ctrl := s.ctrl.map (fun c =>
            { c with target := (lerpV a.startTarget a.endTarget
                (smoothstep (min (a.t + δ) a.d / a.d))) }),
          flight := none,
          fired := s.fired ++ a.onComplete.toList }
      else
        { s with
          camPos := lerpV a.startPos a.endPos (smoothstep (min (a.t + δ) a.d / a.d)),
          ctrl := s.ctrl.map (fun c =>
            { c with target := (lerpV a.startTarget a.endTarget
                (smoothstep (min (a.t + δ) a.d / a.d))) }),
          flight := some { a with t := min (a.t + δ) a.d } } := by
  unfold advance
  rw [hf]

theorem advanceAll_completes (ds : List ℚ) :
    ∀ (s : CamState) (a : Flight), s.flight = some a → 0 < a.d → a.t < a.d →
      (∀ d ∈ ds, 0 ≤ d) → a.d ≤ a.t + ds.sum →
      advanceAll s ds =
        { camPos := a.endPos,
          ctrl := s.ctrl.map (fun c => { c with target := a.endTarget }),
          flight := none,
          fired := s.fired ++ a.onComplete.toList } := by
  induction ds with
  | nil =>
    intro s a hf hd ht _ hsum
    simp only [List.sum_nil, add_zero] at hsum
    exact absurd hsum (not_le.mpr ht)
  | cons δ tl ih =>
    intro s a hf hd ht hpos hsum
    show advanceAll (advance s δ) tl = _
    rw [advance_some s a δ hf]
    by_cases hfin : a.d ≤ a.t + δ
    · have hmin : min (a.t + δ) a.d = a.d := min_eq_right hfin
      rw [if_pos (by rw [hmin])]
      rw [hmin, div_self (ne_of_gt hd), smoothstep_one, lerpV_one, lerpV_one]
      exact advanceAll_no_flight _ tl rfl
    · have hlt1 : a.t + δ < a.d := not_le.mp hfin
      have hmin : min (a.t + δ) a.d = a.t + δ := min_eq_left (le_of_lt hlt1)
      rw [if_neg (by rw [hmin]; exact hfin)]
      rw [hmin]
      have hres := ih
        { s with
          camPos := lerpV a.startPos a.endPos (smoothstep ((a.t + δ) / a.d)),
          ctrl := s.ctrl.map (fun c =>
            { c with target := (lerpV a.startTarget a.endTarget
                (smoothstep ((a.t + δ) / a.d))) }),
          flight := some { a with t := a.t + δ } }
        { a with t := a.t + δ } rfl hd hlt1
        (fun d hdm => hpos d (by simp [hdm]))
        (by
          show a.d ≤ a.t + δ + tl.sum
          rw [List.sum_cons] at hsum
          linarith)
      rw [hres]
      cases hc : s.ctrl with
      | none => rfl
      | some c => rfl

theorem advanceAll_midflight (ds : List ℚ) :
    ∀ (s : CamState) (a : Flight), s.flight = some a → (∀ d ∈ ds, 0 ≤ d) →
      a.t + ds.sum < a.d →
      (advanceAll s ds).fired = s.fired ∧
      (advanceAll s ds).flight = some { a with t := a.t + ds.sum } := by
  induction ds with
  | nil =>
    intro s a hf _ _
    refine ⟨rfl, ?_⟩
    show s.flight = some { a with t := a.t + ([] : List ℚ).sum }
    rw [hf]
    congr 1
    cases a
    simp
  | cons δ tl ih =>
    intro s a hf hpos hlt
    have hδ : 0 ≤ δ := hpos δ (by simp)
    have htl : 0 ≤ tl.sum := List.sum_nonneg (fun x hx => hpos x (by simp [hx]))
    rw [List.sum_cons] at hlt
    have hlt1 : a.t + δ < a.d := by linarith
    have hmin : min (a.t + δ) a.d = a.t + δ := min_eq_left (le_of_lt hlt1)
    show (advanceAll (advance s δ) tl).fired = s.fired ∧
      (advanceAll (advance s δ) tl).flight = some { a with t := a.t + (δ :: tl).sum }
    rw [advance_some s a δ hf, if_neg (by rw [hmin]; exact not_le.mpr hlt1), hmin]
    have hres := ih
      { s with
        camPos := lerpV a.startPos a.endPos (smoothstep ((a.t + δ) / a.d)),
        ctrl := s.ctrl.map (fun c =>
          { c with target := (lerpV a.startTarget a.endTarget
              (smoothstep ((a.t + δ) / a.d))) }),
        flight := some { a with t := a.t + δ } }
      { a with t := a.t + δ } rfl
      (fun d hdm => hpos d (by simp [hdm]))
      (by
        show a.t + δ + tl.sum < a.d
        linarith)
    refine ⟨hres.1, ?_⟩
    rw [hres.2]
    congr 2
    rw [List.sum_cons]
    ring

theorem advanceAll_fired_cases (ds : List ℚ) :
    ∀ s : CamState,
      (advanceAll s ds).fired = s.fired ∨
      ∃ a, s.flight = some a ∧
        (advanceAll s ds).fired = s.fired ++ a.onComplete.toList := by
  induction ds with
  | nil => intro s; exact Or.inl rfl
  | cons δ tl ih =>
    intro s
    show (advanceAll (advance s δ) tl).fired = s.fired ∨
      ∃ a, s.flight = some a ∧
        (advanceAll (advance s δ) tl).fired = s.fired ++ a.onComplete.toList
    cases hf : s.flight with
    | none =>
      rw [advance_no_flight s δ hf]
      cases ih s with
      | inl h => exact Or.inl h
      | inr h =>
        obtain ⟨a, ha, _⟩ := h
        rw [hf] at ha
        exact absurd ha (by simp)
    | some a =>
      rw [advance_some s a δ hf]
      by_cases hfin : a.d ≤ min (a.t + δ) a.d
      · rw [if_pos hfin]
        rw [advanceAll_no_flight _ tl rfl]
        exact Or.inr ⟨a, rfl, rfl⟩
      · rw [if_neg hfin]
        cases ih
          { s with
            camPos := lerpV a.startPos a.endPos (smoothstep (min (a.t + δ) a.d / a.d)),
            ctrl := s.ctrl.map (fun c =>
              { c with target := (lerpV a.startTarget a.endTarget
                  (smoothstep (min (a.t + δ) a.d / a.d))) }),
            flight := some { a with t := min (a.t + δ) a.d } } with
        | inl h => exact Or.inl h
        | inr h =>
          obtain ⟨a2, ha2, hfir⟩ := h
          have ha3 : some ({ a with t := min (a.t + δ) a.d } : Flight) = some a2 := ha2
          injection ha3 with ha4
          refine Or.inr ⟨a, rfl, ?_⟩
          rw [hfir, ← ha4]

/-- C7: every flyTo installs a flight (requests are clamped, never
rejected) whose end position is targetPoint + direction * clampedDistance
with clampedDistance = max(desiredDistance, minDistance + 0.01), whose
duration is max(0.2, requested), elapsed time 0, the snapshotted start
pose, and the given continuation; the camera and fired trace are untouched
by the call itself. -/
theorem c7_flyto_clamps (s s1 : CamState) (dir tgt : Vec3) (dist dur : ℚ)
    (cb : Option Nat)
    (hdir : flyDirOf s = some dir)
    (hfly : flyTo s tgt dist dur cb = some s1) :
    ∃ a : Flight, s1.flight = some a ∧
      a.endPos = vadd tgt
        (vsmul (max dist ((s.ctrl.map CtrlState.minDistance).getD 0 + 1 / 100)) dir) ∧
      a.d = max (1 / 5) dur ∧
      a.startPos = s.camPos ∧
      a.startTarget = (s.ctrl.map CtrlState.target).getD ⟨0, 0, 0⟩ ∧
      a.t = 0 ∧ a.endTarget = tgt ∧ a.onComplete = cb ∧
      s1.camPos = s.camPos ∧ s1.fired = s.fired := by
  have hfly2 : some (flyToWithDir s dir tgt dist dur cb) = some s1 := by
    rw [← hfly]
    unfold flyTo
    rw [hdir]
    rfl
  injection hfly2 with h1
  subst h1
  exact ⟨_, rfl, rfl, rfl, rfl, rfl, rfl, rfl, rfl, rfl, rfl⟩

/-- C4 amended: a flight followed by nonnegative frame deltas whose sum
equals the INSTALLED duration max(0.2, requested) ends with the camera
exactly at the computed end position, the continuation fired exactly once
(appended once to the trace), the record cleared, the continuation never
fired on any strict-prefix of the frames whose sum is below the installed
duration, and every further advance a no-op. -/
theorem c4_flight_completion (s s1 : CamState) (dir tgt : Vec3) (dist dur : ℚ)
    (cbId : Nat)
    (hdir : flyDirOf s = some dir)
    (hfly : flyTo s tgt dist dur (some cbId) = some s1)
    (ds : List ℚ) (hpos : ∀ d ∈ ds, 0 ≤ d)
    (hsum : ds.sum = max (1 / 5) dur) :
    (advanceAll s1 ds).camPos =
      vadd tgt
        (vsmul (max dist ((s.ctrl.map CtrlState.minDistance).getD 0 + 1 / 100)) dir) ∧
    (advanceAll s1 ds).fired = s.fired ++ [cbId] ∧
    (advanceAll s1 ds).flight = none ∧
    (∀ p q, ds = p ++ q → p.sum < max (1 / 5) dur →
      (advanceAll s1 p).fired = s.fired) ∧
    (∀ δ, advance (advanceAll s1 ds) δ = advanceAll s1 ds) := by
  have hfly2 : some (flyToWithDir s dir tgt dist dur (some cbId)) = some s1 := by
    rw [← hfly]
    unfold flyTo
    rw [hdir]
    rfl
  injection hfly2 with h1
  subst h1
  have hd5 : (0 : ℚ) < max (1 / 5) dur :=
    lt_of_lt_of_le (by norm_num) (le_max_left _ _)
  have hcomp := advanceAll_completes ds
    (flyToWithDir s dir tgt dist dur (some cbId))
    { startPos := s.camPos,
      startTarget := (s.ctrl.map CtrlState.target).getD ⟨0, 0, 0⟩,
      endPos := vadd tgt
        (vsmul (max dist ((s.ctrl.map CtrlState.minDistance).getD 0 + 1 / 100)) dir),
      endTarget := tgt,
      t := 0,
      d := max (1 / 5) dur,
      onComplete := some cbId }
    rfl hd5 hd5 hpos (by rw [zero_add, hsum])
  refine ⟨?_, ?_, ?_, ?_, ?_⟩
  · rw [hcomp]
  · rw [hcomp]
    rfl
  · rw [hcomp]
  · intro p q hpq hplt
    have hmid := advanceAll_midflight p
      (flyToWithDir s dir tgt dist dur (some cbId))
      { startPos := s.camPos,
        startTarget := (s.ctrl.map CtrlState.target).getD ⟨0, 0, 0⟩,
        endPos := vadd tgt
          (vsmul (max dist ((s.ctrl.map CtrlState.minDistance).getD 0 + 1 / 100)) dir),
        endTarget := tgt,
        t := 0,
        d := max (1 / 5) dur,
        onComplete := some cbId }
      rfl
      (fun d hdm => hpos d (by rw [hpq]; exact List.mem_append_left q hdm))
      (by rw [zero_add]; exact hplt)
    exact hmid.1
  · intro δ
    apply advance_no_flight
    rw [hcomp]

/-- C4 counterexample: the claim as stated fails when the requested
duration is below the 0.2 clamp.  With requested duration 0.1 the installed
duration is 0.2; advancing by a cumulative delta of exactly the requested
0.1 leaves the flight half-done: nothing is fired and the camera is not at
the end position. -/
theorem c4_counterexample :
    (advanceAll (flyToWithDir camSDeg dirW ⟨0, 0, 0⟩ 1 (1 / 10) (some 0)) [1 / 10]).fired
      = [] ∧
    (advanceAll (flyToWithDir camSDeg dirW ⟨0, 0, 0⟩ 1 (1 / 10) (some 0)) [1 / 10]).flight
      ≠ none ∧
    (advanceAll (flyToWithDir camSDeg dirW ⟨0, 0, 0⟩ 1 (1 / 10) (some 0)) [1 / 10]).camPos
      ≠ vadd ⟨0, 0, 0⟩
          (vsmul (max 1 ((camSDeg.ctrl.map CtrlState.minDistance).getD 0 + 1 / 100)) dirW) := by
  have hsumlt : (0 : ℚ) + ([(1 : ℚ) / 10].sum) < max (1 / 5) (1 / 10) := by
    simp only [List.sum_cons, List.sum_nil, add_zero, zero_add]
    rw [max_eq_left (by norm_num)]
    norm_num
  have hmid := advanceAll_midflight [1 / 10]
    (flyToWithDir camSDeg dirW ⟨0, 0, 0⟩ 1 (1 / 10) (some 0))
    { startPos := camSDeg.camPos,
      startTarget := (camSDeg.ctrl.map CtrlState.target).getD ⟨0, 0, 0⟩,
      endPos := vadd ⟨0, 0, 0⟩
        (vsmul (max 1 ((camSDeg.ctrl.map CtrlState.minDistance).getD 0 + 1 / 100)) dirW),
      endTarget := ⟨0, 0, 0⟩,
      t := 0,
      d := max (1 / 5) (1 / 10),
      onComplete := some 0 }
    rfl (by norm_num) hsumlt
  refine ⟨hmid.1, ?_, ?_⟩
  · rw [hmid.2]
    simp
  · have hstep : advanceAll (flyToWithDir camSDeg dirW ⟨0, 0, 0⟩ 1 (1 / 10) (some 0))
        [1 / 10]
        = advance (flyToWithDir camSDeg dirW ⟨0, 0, 0⟩ 1 (1 / 10) (some 0)) (1 / 10) :=
      rfl
    rw [hstep, advance_some _
      { startPos := camSDeg.camPos,
        startTarget := (camSDeg.ctrl.map CtrlState.target).getD ⟨0, 0, 0⟩,
        endPos := vadd ⟨0, 0, 0⟩
          (vsmul (max 1 ((camSDeg.ctrl.map CtrlState.minDistance).getD 0 + 1 / 100)) dirW),
        endTarget := ⟨0, 0, 0⟩,
        t := 0,
        d := max (1 / 5) (1 / 10),
        onComplete := some 0 }
      (1 / 10) rfl]
    rw [if_neg (by
      show ¬(max ((1 : ℚ) / 5) (1 / 10) ≤
        min ((0 : ℚ) + 1 / 10) (max ((1 : ℚ) / 5) (1 / 10)))
      rw [max_eq_left (by norm_num : (1 : ℚ) / 10 ≤ 1 / 5), zero_add,
        min_eq_left (by norm_num : (1 : ℚ) / 10 ≤ 1 / 5)]
      norm_num)]
    show lerpV ⟨0, 0, 0⟩
        (vadd ⟨0, 0, 0⟩ (vsmul (max 1 ((0 : ℚ) + 1 / 100)) dirW))
        (smoothstep (min ((0 : ℚ) + 1 / 10) (max ((1 : ℚ) / 5) (1 / 10))
          / max ((1 : ℚ) / 5) (1 / 10)))
      ≠ vadd ⟨0, 0, 0⟩ (vsmul (max 1 ((0 : ℚ) + 1 / 100)) dirW)
    rw [max_eq_left (by norm_num : (1 : ℚ) / 10 ≤ 1 / 5), zero_add, zero_add,
      min_eq_left (by norm_num : (1 : ℚ) / 10 ≤ 1 / 5),
      max_eq_left (by norm_num : (1 : ℚ) / 100 ≤ 1)]
    unfold lerpV vadd vsmul vsub smoothstep dirW
    intro hcon
    rw [Vec3.mk.injEq] at hcon
    obtain ⟨h1, h2, h3⟩ := hcon
    norm_num at h1

/-- C8: the state holds at most one flight record (an Option mirroring the
single animRef), and a flyTo issued while a flight is in progress replaces
the record silently: the fired trace is untouched at replacement time, the
new record carries the new continuation, and the old flight's continuation
identifier is never invoked by any later sequence of frames. -/
theorem c8_replacement_drops_continuation (s s1 : CamState) (a : Flight)
    (oldId newId : Nat) (tgt : Vec3) (dist dur : ℚ) (dir : Vec3)
    (hflight : s.flight = some a) (hold : a.onComplete = some oldId)
    (hnotin : oldId ∉ s.fired) (hne : oldId ≠ newId)
    (hdir : flyDirOf s = some dir)
    (hfly : flyTo s tgt dist dur (some newId) = some s1) :
    s1.fired = s.fired ∧
    (∃ b : Flight, s1.flight = some b ∧ b.onComplete = some newId) ∧
    (∀ ds : List ℚ, oldId ∉ (advanceAll s1 ds).fired) := by
  have hfly2 : some (flyToWithDir s dir tgt dist dur (some newId)) = some s1 := by
    rw [← hfly]
    unfold flyTo
    rw [hdir]
    rfl
  injection hfly2 with h1
  subst h1
  refine ⟨rfl, ⟨_, rfl, rfl⟩, ?_⟩
  intro ds
  cases advanceAll_fired_cases ds (flyToWithDir s dir tgt dist dur (some newId)) with
  | inl h =>
    rw [h]
    exact hnotin
  | inr h =>
    obtain ⟨b, hb, hfir⟩ := h
    simp only [flyToWithDir, Option.some.injEq] at hb
    rw [hfir, ← hb]
    simp only [List.mem_append]
    rintro (hc | hc)
    · exact hnotin hc
    · have hmem : oldId = newId := by simpa using hc
      exact hne hmem

theorem c7_flyto_clamps_witness :
    ∃ a : Flight,
      (flyToWithDir camSDeg dirW ⟨3, 0, 4⟩ (1 / 2) 2 (some 7)).flight = some a ∧
      a.endPos = vadd ⟨3, 0, 4⟩
        (vsmul (max (1 / 2) ((camSDeg.ctrl.map CtrlState.minDistance).getD 0 + 1 / 100))
          dirW) ∧
      a.d = max (1 / 5) 2 ∧
      a.startPos = camSDeg.camPos ∧
      a.startTarget = (camSDeg.ctrl.map CtrlState.target).getD ⟨0, 0, 0⟩ ∧
      a.t = 0 ∧ a.endTarget = ⟨3, 0, 4⟩ ∧ a.onComplete = some 7 ∧
      (flyToWithDir camSDeg dirW ⟨3, 0, 4⟩ (1 / 2) 2 (some 7)).camPos = camSDeg.camPos ∧
      (flyToWithDir camSDeg dirW ⟨3, 0, 4⟩ (1 / 2) 2 (some 7)).fired = camSDeg.fired :=
  c7_flyto_clamps camSDeg (flyToWithDir camSDeg dirW ⟨3, 0, 4⟩ (1 / 2) 2 (some 7))
    dirW ⟨3, 0, 4⟩ (1 / 2) 2 (some 7)
    (by norm_num [flyDirOf, camSDeg, vsub, dirW, Vec3.mk.injEq])
    (by norm_num [flyTo, flyDirOf, camSDeg, vsub, dirW, Vec3.mk.injEq])

theorem c4_flight_completion_witness :
    (advanceAll (flyToWithDir camSDeg dirW ⟨0, 0, 0⟩ 1 1 (some 0)) [1 / 2, 1 / 2]).camPos =
      vadd ⟨0, 0, 0⟩
        (vsmul (max 1 ((camSDeg.ctrl.map CtrlState.minDistance).getD 0 + 1 / 100)) dirW) ∧
    (advanceAll (flyToWithDir camSDeg dirW ⟨0, 0, 0⟩ 1 1 (some 0)) [1 / 2, 1 / 2]).fired =
      camSDeg.fired ++ [0] ∧
    (advanceAll (flyToWithDir camSDeg dirW ⟨0, 0, 0⟩ 1 1 (some 0)) [1 / 2, 1 / 2]).flight =
      none ∧
    (∀ p q, ([(1 : ℚ) / 2, 1 / 2] : List ℚ) = p ++ q → p.sum < max (1 / 5) 1 →
      (advanceAll (flyToWithDir camSDeg dirW ⟨0, 0, 0⟩ 1 1 (some 0)) p).fired =
        camSDeg.fired) ∧
    (∀ δ, advance (advanceAll (flyToWithDir camSDeg dirW ⟨0, 0, 0⟩ 1 1 (some 0))
        [1 / 2, 1 / 2]) δ =
      advanceAll (flyToWithDir camSDeg dirW ⟨0, 0, 0⟩ 1 1 (some 0)) [1 / 2, 1 / 2]) :=
  c4_flight_completion camSDeg (flyToWithDir camSDeg dirW ⟨0, 0, 0⟩ 1 1 (some 0))
    dirW ⟨0, 0, 0⟩ 1 1 0
    (by norm_num [flyDirOf, camSDeg, vsub, dirW, Vec3.mk.injEq])
    (by norm_num [flyTo, flyDirOf, camSDeg, vsub, dirW, Vec3.mk.injEq]) [1 / 2, 1 / 2]
    (by
      intro d hd
      rcases List.mem_cons.mp hd with h1 | h1
      · rw [h1]; norm_num
      · rcases List.mem_cons.mp h1 with h2 | h2
        · rw [h2]; norm_num
        · exact absurd h2 (by simp))
    (by
      simp only [List.sum_cons, List.sum_nil, add_zero]
      rw [max_eq_right (by norm_num : (1 : ℚ) / 5 ≤ 1)]
      norm_num)

theorem c8_replacement_drops_continuation_witness :
    (flyToWithDir camSBusy dirW ⟨2, 2, 2⟩ 1 1 (some 0)).fired = camSBusy.fired ∧
    (∃ b : Flight,
      (flyToWithDir camSBusy dirW ⟨2, 2, 2⟩ 1 1 (some 0)).flight = some b ∧
      b.onComplete = some 0) ∧
    (∀ ds : List ℚ,
      5 ∉ (advanceAll (flyToWithDir camSBusy dirW ⟨2, 2, 2⟩ 1 1 (some 0)) ds).fired) :=
  c8_replacement_drops_continuation camSBusy
    (flyToWithDir camSBusy dirW ⟨2, 2, 2⟩ 1 1 (some 0))
    { startPos := ⟨0, 0, 0⟩, startTarget := ⟨0, 0, 0⟩, endPos := ⟨1, 1, 1⟩,
      endTarget := ⟨1, 1, 1⟩, t := 1 / 10, d := 1, onComplete := some 5 }
    5 0 ⟨2, 2, 2⟩ 1 1 dirW rfl rfl (by simp [camSBusy]) (by norm_num)
    (by norm_num [flyDirOf, camSBusy, vsub, dirW, Vec3.mk.injEq])
    (by norm_num [flyTo, flyDirOf, camSBusy, vsub, dirW, Vec3.mk.injEq])
